import Mathlib

/-!
Verification development for `paper2movie.py`, the single source file of the
paper-lapse repository.  The script turns the git history of a LaTeX paper into
a movie: every commit is rendered to a PDF, each PDF is tiled into one canvas
image, the images are arranged into a frame sequence under one of three timing
modes, and the frames are encoded into a video.

The embedding below translates the data model and the core functions
(`compute_tile_sizes`, `generate_pdfs`, `find_maximum_number_of_pages`,
`generate_images`, `arrange_images` and the `main` pipeline) into Lean.
Conventions:
  * commit timestamps (`committed_datetime`) are integers, seconds since the
    epoch, all in one timezone; `datetime.date()` becomes floor division by
    86400 (the calendar-day number);
  * filesystem state is explicit: the pdf directory is an association list
    from commit hash to page count, the image directory a list of hashes;
  * external processes are an oracle `render : Nat -> RenderResult`;
  * Python exceptions become `Except` errors;
  * float arithmetic in `compute_tile_sizes` is modelled over the exact reals.
-/

deriving instance DecidableEq for Except

/-- A git commit as used by the script: a stable identifier (`hexsha`,
modelled as a natural number) and its committer timestamp in seconds. -/
structure Commit where
  hexsha : Nat
  committed_datetime : Int
deriving DecidableEq, Repr

/-- `datetime.date()` of a timestamp: the calendar-day number, i.e. floor
division of the timestamp by 86400 seconds. -/
def dateOf (t : Int) : Int := t / 86400

/-- Python `min` over a non-empty list, written as a fold over the tail with
the head as the initial value. -/
def pymin (x : Int) (xs : List Int) : Int := xs.foldl min x

/-- Python `max` over a non-empty list. -/
def pymax (x : Int) (xs : List Int) : Int := xs.foldl max x

/-- Helper for `enumerate`: pairs every element with its index, starting
at `k`. -/
def enumFromAux (k : Nat) : List α → List (Nat × α)
  | [] => []
  | x :: xs => (k, x) :: enumFromAux (k + 1) xs

/-- Python `enumerate`: pairs every element of a list with its position. -/
def enumerate (l : List α) : List (Nat × α) := enumFromAux 0 l

/-- The `days = [first_day]; while days[-1] < last_day: days.append(days[-1] + 1)`
loop of `arrange_images`, with the exact trip count of the loop as structural
fuel. -/
def daysFromAux : Nat → Int → Int → List Int
  | 0, d, _ => [d]
  | n + 1, d, last => if d < last then d :: daysFromAux n (d + 1) last else [d]

/-- The list of calendar days `first_day, first_day + 1, ..., last_day`
(just `[first_day]` when `last_day <= first_day`), as built by the while loop
in the `days` branch of `arrange_images`. -/
def daysFrom (d last : Int) : List Int := daysFromAux (last - d).toNat d last

/-- The list comprehension
`[commit_times[i] - commit_times[i - 1] for i in range(1, len(commits))]`. -/
def time_deltas : List Int → List Int
  | [] => []
  | [_] => []
  | a :: b :: rest => (b - a) :: time_deltas (b :: rest)

/-- The `timing` configuration value: one frame per commit, per day, or per
smallest inter-commit interval. -/
inductive Timing
  | commits
  | days
  | realtime
deriving DecidableEq, Repr

/-- Exceptions that can escape `arrange_images`:
  * `valueError` models Python `ValueError: min() arg is an empty sequence`,
    raised in the `days` branch on an empty commit list and in the `realtime`
    branch when fewer than two commits leave `time_deltas` empty;
  * `zeroDivisionError` models Python `ZeroDivisionError` when the minimum
    time delta is zero and the projected frame count `span / resolution`
    is evaluated;
  * `systemExit` models the unconditional `exit()` in the `realtime` branch,
    carrying the computed resolution and the projected frame count that the
    script prints via `ic(...)` just before exiting. -/
inductive SamplerError
  | valueError
  | zeroDivisionError
  | systemExit (target_resolution : Int) (projected_frame_count : Rat)
deriving DecidableEq, Repr

/-- The `for commit in reversed(commits): if commit.committed_datetime.date() <= day: break`
loop: the first commit of the reversed list whose date is on or before `day`.
When no commit matches, Python leaves the loop variable at the last iterated
element, which is the head of the original list; the caller passes that head
as `fallback`. -/
def latest_on_or_before (commits : List Commit) (fallback : Commit) (day : Int) : Commit :=
  (commits.reverse.find? fun x => decide (dateOf x.committed_datetime ≤ day)).getD fallback

/-- The `days` branch of `arrange_images` on a non-empty commit list
`c :: cs`: compute the first and last calendar day over all commits, build the
inclusive day range, and bind each day (paired with its frame index) to the
last commit in list order whose date is on or before that day. -/
def arrange_days (c : Commit) (cs : List Commit) : List (Nat × Commit) :=
  (enumerate (daysFrom
      (pymin (dateOf c.committed_datetime) (cs.map fun x => dateOf x.committed_datetime))
      (pymax (dateOf c.committed_datetime) (cs.map fun x => dateOf x.committed_datetime)))).map
    fun p => (p.1, latest_on_or_before (c :: cs) c p.2)

/-- `arrange_images(mode, commits, ...)`: produces the frame list, each frame
a zero-based index paired with the commit whose composite image it displays.
  * `commits` mode: one frame per commit via `enumerate`;
  * `days` mode: an empty list raises `ValueError` (from `min(commit_days)`),
    otherwise one frame per day from `arrange_days`;
  * `realtime` mode: fewer than two commits raise `ValueError` (from
    `min(time_deltas)`); otherwise the script computes the minimum delta,
    evaluates the projected frame count `span / resolution` (a
    `ZeroDivisionError` when the minimum delta is zero), prints both and
    calls `exit()` before any frame is produced. -/
def arrange_images (mode : Timing) (commits : List Commit) :
    Except SamplerError (List (Nat × Commit)) :=
  match mode with
  | Timing.commits => Except.ok (enumerate commits)
  | Timing.days =>
    match commits with
    | [] => Except.error SamplerError.valueError
    | c :: cs => Except.ok (arrange_days c cs)
  | Timing.realtime =>
    match time_deltas (commits.map fun x => x.committed_datetime) with
    | [] => Except.error SamplerError.valueError
    | d :: ds =>
      match commits.map fun x => x.committed_datetime with
      | [] => Except.error SamplerError.valueError
      | t :: ts =>
        if pymin d ds = 0 then Except.error SamplerError.zeroDivisionError
        else Except.error (SamplerError.systemExit (pymin d ds)
          ((((pymax t ts - pymin t ts : Int)) : Rat) / ((pymin d ds : Int) : Rat)))


/-- Failure of the tile-layout computation.  `layoutInfeasible` models the
exception that `compute_tile_sizes` raises for a non-positive page count: a
`ZeroDivisionError` when `max_page_num == 0` (division by `ratio_a4 * 0`) and
a `TypeError` when `max_page_num < 0` (`** 0.5` of a negative float yields a
complex number, which `math.ceil` rejects).  Either way the run aborts here,
before any image is composed or any frame arranged. -/
inductive LayoutError
  | layoutInfeasible
deriving DecidableEq, Repr

/-- `compute_tile_sizes(total_width, total_height, max_page_num)`, with the
float arithmetic modelled over the exact reals (`** 0.5` becomes
`Real.sqrt`, exact for the non-negative arguments that arise here).  Returns
`(grid_width, grid_height, tile_width, tile_height)`. -/
noncomputable def compute_tile_sizes (total_width total_height max_page_num : Int) :
    Except LayoutError (Int × Int × Real × Real) :=
  if max_page_num ≤ 0 then Except.error LayoutError.layoutInfeasible
  else
    let ratio_a4 : Real := 0.7070
    let tile_height0 : Real :=
      Real.sqrt ((total_width : Real) * (total_height : Real) / (ratio_a4 * (max_page_num : Real)))
    let tile_width0 : Real := tile_height0 * ratio_a4
    let grid_height : Int := ⌈(total_height : Real) / tile_height0⌉
    let grid_width : Int := ⌈(total_width : Real) / tile_width0⌉
    Except.ok (grid_width, grid_height,
      (total_width : Real) / (grid_width : Real), (total_height : Real) / (grid_height : Real))

/-- Outcome of compiling one commit with `pdflatex`/`bibtex`:
  * `ok pages`: the commit compiles to a PDF with `pages` pages;
  * `compileFail`: a `git.GitCommandError`, caught by the `except` clause so
    the commit is skipped;
  * `fatal`: any other exception (e.g. the `rename` of a missing PDF raising
    `FileNotFoundError`), which escapes `generate_pdfs` uncaught.
The oracle is a function of the commit hash, so identical configuration means
identical outcomes across runs. -/
inductive RenderResult
  | ok (pages : Nat)
  | compileFail
  | fatal
deriving DecidableEq, Repr

/-- Observable actions of a run, used to state checkpoint-resume and
single-planning properties. -/
inductive Event
  | checkedOut (hexsha : Nat)
  | rendered (hexsha : Nat)
  | planned (max_page_num : Nat)
  | composed (hexsha : Nat)
deriving DecidableEq, Repr

/-- Mutable state touched by `generate_pdfs`: the commit the git working copy
currently points to, and the pdf output directory as an association list from
commit hash to page count of the stored PDF. -/
structure GPState where
  checkout : Nat
  pdfs : List (Nat × Nat)
deriving DecidableEq, Repr

/-- Lookup of `pdf_dir / f"{hexsha}.pdf"` in the modelled pdf directory. -/
def pdf_lookup (k : Nat) : List (Nat × Nat) → Option Nat
  | [] => none
  | (a, b) :: rest => if k = a then some b else pdf_lookup k rest

/-- The per-commit loop of `generate_pdfs`.  For each commit: if its PDF
already exists the commit is recorded as successful and the loop moves on
without touching the working copy; otherwise the commit is checked out and
compiled, a successful compile stores the PDF, a `GitCommandError` is caught
and the commit skipped, and any other exception aborts the loop, leaving the
working copy and pdf directory as they are.  Returns the final state, the
successful commits in order, and the event trace (or, on an uncaught
exception, the state and trace at the point of failure). -/
def gpGo (render : Nat → RenderResult) :
    List Commit → GPState →
    Except (GPState × List Event) (GPState × List Commit × List Event)
  | [], s => Except.ok (s, [], [])
  | c :: cs, s =>
    if (pdf_lookup c.hexsha s.pdfs).isSome then
      match gpGo render cs s with
      | Except.ok (s1, succ, evs) => Except.ok (s1, c :: succ, evs)
      | Except.error e => Except.error e
    else
      match render c.hexsha with
      | RenderResult.ok pages =>
        match gpGo render cs ⟨c.hexsha, s.pdfs ++ [(c.hexsha, pages)]⟩ with
        | Except.ok (s1, succ, evs) =>
          Except.ok (s1, c :: succ,
            Event.checkedOut c.hexsha :: Event.rendered c.hexsha :: evs)
        | Except.error (se, evs) =>
          Except.error (se, Event.checkedOut c.hexsha :: Event.rendered c.hexsha :: evs)
      | RenderResult.compileFail =>
        match gpGo render cs ⟨c.hexsha, s.pdfs⟩ with
        | Except.ok (s1, succ, evs) =>
          Except.ok (s1, succ,
            Event.checkedOut c.hexsha :: Event.rendered c.hexsha :: evs)
        | Except.error (se, evs) =>
          Except.error (se, Event.checkedOut c.hexsha :: Event.rendered c.hexsha :: evs)
      | RenderResult.fatal =>
        Except.error (⟨c.hexsha, s.pdfs⟩,
          [Event.checkedOut c.hexsha, Event.rendered c.hexsha])

/-- `generate_pdfs(commits, repo, pdf_dir)`: `last_commit = commits[-1]` (an
`IndexError` on an empty list), then the per-commit loop, then
`repo.git.checkout(last_commit)` — executed only when the loop completes
without an uncaught exception. -/
def generate_pdfs (render : Nat → RenderResult) (commits : List Commit) (s : GPState) :
    Except (GPState × List Event) (GPState × List Commit × List Event) :=
  match commits.getLast? with
  | none => Except.error (s, [])
  | some last =>
    match gpGo render commits s with
    | Except.error e => Except.error e
    | Except.ok (s1, succ, evs) =>
      Except.ok (⟨last.hexsha, s1.pdfs⟩, succ, evs ++ [Event.checkedOut last.hexsha])

/-- The event trace of a `generate_pdfs` result, on both exit paths. -/
def gpEvents : Except (GPState × List Event) (GPState × List Commit × List Event) → List Event
  | Except.error (_, evs) => evs
  | Except.ok (_, _, evs) => evs

/-- `find_maximum_number_of_pages(pdf_dir)`: folds over every PDF in the
directory (whatever its origin), keeping the largest page count, starting
from 0. -/
def find_maximum_number_of_pages (pdfs : List (Nat × Nat)) : Nat :=
  pdfs.foldl (fun m p => if p.2 > m then p.2 else m) 0

/-- The per-PDF loop of `generate_images`: for every PDF in the directory,
skip it if its PNG already exists, otherwise compose the PNG with `montage`.
Returns the final image directory (a list of hashes) and the composition
events. -/
def giGo : List (Nat × Nat) → List Nat → List Nat × List Event
  | [], pngs => (pngs, [])
  | (h, _) :: rest, pngs =>
    if h ∈ pngs then giGo rest pngs
    else
      let r := giGo rest (pngs ++ [h])
      (r.1, Event.composed h :: r.2)

/-- `generate_images(pdf_dir, image_dir, ...)` over the modelled directories. -/
def generate_images (pdfs : List (Nat × Nat)) (pngs : List Nat) : List Nat × List Event :=
  giGo pdfs pngs

/-- The page count a commit compiles to under the render oracle (0 when it
does not compile). -/
def pageOf (render : Nat → RenderResult) (c : Commit) : Nat :=
  match render c.hexsha with
  | RenderResult.ok pages => pages
  | RenderResult.compileFail => 0
  | RenderResult.fatal => 0

/-- Exceptions that can end a run of `main`:
  * `pdfStageException` — an uncaught exception inside `generate_pdfs`
    (including the `IndexError` on an empty commit list);
  * `layoutInfeasible` — `compute_tile_sizes` aborting on a non-positive
    maximum page count;
  * `sampler e` — `arrange_images` aborting. -/
inductive RunError
  | pdfStageException
  | layoutInfeasible
  | sampler (e : SamplerError)
deriving DecidableEq, Repr

/-- Result of a completed run of `main`. -/
structure MainOut where
  state : GPState
  successful : List Commit
  max_page_num : Nat
  pngs : List Nat
  frames : List (Nat × Commit)
deriving DecidableEq, Repr

/-- The `main()` pipeline: `generate_pdfs`, then
`find_maximum_number_of_pages`, then `compute_tile_sizes` (whose failure
condition on the natural-number page maximum is exactly `max_page_num = 0`;
the tile geometry itself does not influence later control flow and is kept
out of the run state), then `generate_images`, then `arrange_images`.
Returns the run outcome together with the full event trace. -/
def paper2movie (render : Nat → RenderResult) (timing : Timing) (commits : List Commit)
    (s0 : GPState) (pngs0 : List Nat) : Except RunError MainOut × List Event :=
  match generate_pdfs render commits s0 with
  | Except.error (_, evs) => (Except.error RunError.pdfStageException, evs)
  | Except.ok (s1, successful, evs1) =>
    let max_page_num := find_maximum_number_of_pages s1.pdfs
    if max_page_num = 0 then
      (Except.error RunError.layoutInfeasible, evs1 ++ [Event.planned max_page_num])
    else
      let gi := generate_images s1.pdfs pngs0
      match arrange_images timing successful with
      | Except.error e =>
        (Except.error (RunError.sampler e), evs1 ++ [Event.planned max_page_num] ++ gi.2)
      | Except.ok frames =>
        (Except.ok ⟨s1, successful, max_page_num, gi.1, frames⟩,
          evs1 ++ [Event.planned max_page_num] ++ gi.2)

/-! Supporting lemmas about the list helpers. -/

lemma enumFromAux_length (l : List α) : ∀ k, (enumFromAux k l).length = l.length := by
  induction l with
  | nil => intro k; rfl
  | cons x xs ih => intro k; simp [enumFromAux, ih]

lemma enumerate_length (l : List α) : (enumerate l).length = l.length :=
  enumFromAux_length l 0

lemma enumFromAux_mem (l : List α) : ∀ k i x,
    (i, x) ∈ enumFromAux k l ↔ (k ≤ i ∧ l.get? (i - k) = some x) := by
  induction l with
  | nil => intro k i x; simp [enumFromAux]
  | cons y ys ih =>
    intro k i x
    simp only [enumFromAux, List.mem_cons, Prod.mk.injEq, ih]
    constructor
    · rintro (⟨rfl, rfl⟩ | ⟨hk, hget⟩)
      · simp
      · constructor
        · omega
        · have : i - k = (i - (k + 1)) + 1 := by omega
          rw [this]
          simpa using hget
    · rintro ⟨hk, hget⟩
      rcases Nat.eq_or_lt_of_le hk with rfl | hlt
      · left
        simp at hget
        exact ⟨rfl, hget.symm⟩
      · right
        refine ⟨by omega, ?_⟩
        have h2 : i - k = (i - (k + 1)) + 1 := by omega
        rw [h2] at hget
        simpa using hget

lemma enumerate_mem (l : List α) (i : Nat) (x : α) :
    (i, x) ∈ enumerate l ↔ l.get? i = some x := by
  simpa using enumFromAux_mem l 0 i x

lemma daysFromAux_length : ∀ (n : Nat) (d last : Int), (last - d).toNat ≤ n →
    (daysFromAux n d last).length = (last - d).toNat + 1 := by
  intro n
  induction n with
  | zero => intro d last h; simp [daysFromAux]; omega
  | succ m ih =>
    intro d last h
    by_cases hd : d < last
    · have hrec := ih (d + 1) last (by omega)
      simp [daysFromAux, hd, hrec]
      omega
    · simp [daysFromAux, hd]
      omega

lemma daysFrom_length (d last : Int) :
    (daysFrom d last).length = (last - d).toNat + 1 :=
  daysFromAux_length _ d last le_rfl

lemma daysFromAux_get? : ∀ (n : Nat) (d last : Int) (i : Nat) (day : Int),
    (last - d).toNat ≤ n → (daysFromAux n d last).get? i = some day → day = d + i := by
  intro n
  induction n with
  | zero =>
    intro d last i day _ h
    cases i with
    | zero => simp [daysFromAux] at h; omega
    | succ j => simp [daysFromAux] at h
  | succ m ih =>
    intro d last i day hle h
    by_cases hd : d < last
    · rw [daysFromAux, if_pos hd] at h
      cases i with
      | zero => simp at h; omega
      | succ j =>
        simp only [List.get?] at h
        have := ih (d + 1) last j day (by omega) h
        omega
    · rw [daysFromAux, if_neg hd] at h
      cases i with
      | zero => simp at h; omega
      | succ j => simp at h

lemma daysFrom_get? (d last : Int) (i : Nat) (day : Int)
    (h : (daysFrom d last).get? i = some day) : day = d + i :=
  daysFromAux_get? _ d last i day le_rfl h

lemma pymin_mem (xs : List Int) : ∀ x, pymin x xs ∈ x :: xs := by
  induction xs with
  | nil => intro x; simp [pymin]
  | cons y ys ih =>
    intro x
    have hfold : pymin x (y :: ys) = pymin (min x y) ys := by simp [pymin]
    rcases List.mem_cons.mp (ih (min x y)) with h1 | h1
    · rw [hfold, h1]
      rcases min_choice x y with hc | hc <;> rw [hc]
      · exact List.mem_cons_self _ _
      · exact List.mem_cons_of_mem _ (List.mem_cons_self _ _)
    · rw [hfold]
      exact List.mem_cons_of_mem _ (List.mem_cons_of_mem _ h1)

lemma pymin_le (xs : List Int) : ∀ x, ∀ y ∈ x :: xs, pymin x xs ≤ y := by
  induction xs with
  | nil => intro x y hy; simp at hy; simp [pymin, hy]
  | cons z zs ih =>
    intro x y hy
    have hfold : pymin x (z :: zs) = pymin (min x z) zs := by simp [pymin]
    have hbase : pymin (min x z) zs ≤ min x z :=
      ih (min x z) (min x z) (List.mem_cons_self _ _)
    rcases List.mem_cons.mp hy with heq | hy1
    · rw [heq, hfold]
      exact le_trans hbase (min_le_left _ _)
    · rcases List.mem_cons.mp hy1 with heq | hy2
      · rw [heq, hfold]
        exact le_trans hbase (min_le_right _ _)
      · rw [hfold]
        exact ih (min x z) y (List.mem_cons_of_mem _ hy2)

lemma pymin_of_le (xs : List Int) : ∀ x, (∀ y ∈ xs, x ≤ y) → pymin x xs = x := by
  induction xs with
  | nil => intro x _; rfl
  | cons z zs ih =>
    intro x h
    have hxz : x ≤ z := h z (List.mem_cons_self _ _)
    have : pymin x (z :: zs) = pymin (min x z) zs := by simp [pymin]
    rw [this, min_eq_left hxz]
    exact ih x (fun y hy => h y (List.mem_cons_of_mem _ hy))

lemma pymax_sorted (xs : List Int) : ∀ x, List.Sorted (· ≤ ·) (x :: xs) →
    pymax x xs = (x :: xs).getLast (List.cons_ne_nil x xs) := by
  induction xs with
  | nil => intro x _; rfl
  | cons z zs ih =>
    intro x hs
    have hxz : x ≤ z := (List.pairwise_cons.mp hs).1 z (List.mem_cons_self _ _)
    have h1 : pymax x (z :: zs) = pymax (max x z) zs := by simp [pymax]
    rw [h1, max_eq_right hxz]
    have hs2 : List.Sorted (· ≤ ·) (z :: zs) := (List.pairwise_cons.mp hs).2
    rw [ih z hs2]
    rw [List.getLast_cons (List.cons_ne_nil z zs)]

lemma dateOf_mono {a b : Int} (h : a ≤ b) : dateOf a ≤ dateOf b := by
  unfold dateOf; omega

lemma find?_mem_of_pred {p : α → Bool} : ∀ (l : List α) (a : α), a ∈ l → p a = true →
    ∃ b, l.find? p = some b := by
  intro l
  induction l with
  | nil => intro a ha _; simp at ha
  | cons x xs ih =>
    intro a ha hp
    by_cases hx : p x
    · exact ⟨x, List.find?_cons_of_pos _ hx⟩
    · rcases List.mem_cons.mp ha with heq | hmem
      · rw [heq] at hp; simp [hp] at hx
      · obtain ⟨b, hb⟩ := ih a hmem hp
        exact ⟨b, by rwa [List.find?_cons_of_neg _ (by simpa using hx)]⟩

lemma find?_split {p : α → Bool} : ∀ (l : List α) (a : α), l.find? p = some a →
    p a = true ∧ ∃ l1 l2, l = l1 ++ a :: l2 ∧ ∀ b ∈ l1, p b = false := by
  intro l
  induction l with
  | nil => intro a h; simp [List.find?] at h
  | cons x xs ih =>
    intro a h
    by_cases hx : p x
    · rw [List.find?_cons_of_pos _ hx] at h
      have hxa : x = a := by injection h
      subst hxa
      exact ⟨hx, [], xs, rfl, by simp⟩
    · rw [List.find?_cons_of_neg _ (by simpa using hx)] at h
      obtain ⟨hpa, l1, l2, heq, hl1⟩ := ih a h
      refine ⟨hpa, x :: l1, l2, by rw [heq, List.cons_append], ?_⟩
      intro b hb
      rcases List.mem_cons.mp hb with heqb | hmem
      · rw [heqb]; simpa using hx
      · exact hl1 b hmem

/-- Order relation on commits used for the sortedness hypotheses: ascending
committer timestamps. -/
def chronLE (a b : Commit) : Prop := a.committed_datetime ≤ b.committed_datetime

instance : DecidableRel chronLE := fun a b =>
  inferInstanceAs (Decidable (a.committed_datetime ≤ b.committed_datetime))

/-- Specification of the reversed-scan loop on a chronologically sorted,
non-empty commit list whose head already qualifies: the selected commit is in
the list, its date is on or before `day`, and it carries the latest timestamp
among all commits whose date is on or before `day`. -/
lemma latest_on_or_before_spec (c : Commit) (cs : List Commit) (day : Int)
    (hs : List.Sorted chronLE (c :: cs))
    (hday : dateOf c.committed_datetime ≤ day) :
    latest_on_or_before (c :: cs) c day ∈ c :: cs ∧
    dateOf (latest_on_or_before (c :: cs) c day).committed_datetime ≤ day ∧
    ∀ x ∈ c :: cs, dateOf x.committed_datetime ≤ day →
      x.committed_datetime ≤ (latest_on_or_before (c :: cs) c day).committed_datetime := by
  have hcmem : c ∈ (c :: cs).reverse := by simp
  obtain ⟨r, hr⟩ :=
    find?_mem_of_pred (p := fun x => decide (dateOf x.committed_datetime ≤ day))
      ((c :: cs).reverse) c hcmem (by simpa using hday)
  have hlat : latest_on_or_before (c :: cs) c day = r := by
    unfold latest_on_or_before
    rw [hr]
    rfl
  obtain ⟨hpr, l1, l2, hsplit, hl1⟩ := find?_split _ r hr
  have hlist : c :: cs = l2.reverse ++ r :: l1.reverse := by
    have : ((c :: cs).reverse).reverse = (l1 ++ r :: l2).reverse := by rw [hsplit]
    simpa [List.reverse_append] using this
  have hrdate : dateOf r.committed_datetime ≤ day := by simpa using hpr
  have hrmem : r ∈ c :: cs := by
    rw [hlist]
    exact List.mem_append_right _ (List.mem_cons_self _ _)
  refine ⟨by rw [hlat]; exact hrmem, by rw [hlat]; exact hrdate, ?_⟩
  intro x hx hxdate
  rw [hlat]
  have hs2 : List.Pairwise chronLE (l2.reverse ++ r :: l1.reverse) := by
    rw [hlist] at hs
    exact hs
  rw [hlist] at hx
  rcases List.mem_append.mp hx with hx2 | hx2
  · exact (List.pairwise_append.mp hs2).2.2 x hx2 r (List.mem_cons_self _ _)
  · rcases List.mem_cons.mp hx2 with heq | hx3
    · rw [heq]
    · have : x ∈ l1 := List.mem_reverse.mp hx3
      have hfalse := hl1 x this
      simp at hfalse
      omega

lemma getLast?_map_comm (f : α → β) : ∀ (l : List α),
    (l.map f).getLast? = l.getLast?.map f := by
  intro l
  induction l with
  | nil => rfl
  | cons x xs ih =>
    cases xs with
    | nil => rfl
    | cons y ys =>
      simp only [List.map_cons, List.getLast?_cons_cons] at ih ⊢
      exact ih

lemma getLast_map_comm (f : α → β) (l : List α) (h : l ≠ [])
    (h2 : l.map f ≠ []) : (l.map f).getLast h2 = f (l.getLast h) := by
  have e1 : (l.map f).getLast? = some ((l.map f).getLast h2) :=
    List.getLast?_eq_getLast _ h2
  have e2 : l.getLast? = some (l.getLast h) := List.getLast?_eq_getLast _ h
  rw [getLast?_map_comm, e2] at e1
  simp only [Option.map_some'] at e1
  exact (Option.some_injective _ e1).symm

/-- On a chronologically sorted list, `first_day = min(commit_days)` is the
date of the head commit. -/
lemma first_day_eq (c : Commit) (cs : List Commit) (hs : List.Sorted chronLE (c :: cs)) :
    pymin (dateOf c.committed_datetime) (cs.map fun x => dateOf x.committed_datetime) =
      dateOf c.committed_datetime := by
  apply pymin_of_le
  intro y hy
  obtain ⟨x, hx, rfl⟩ := List.mem_map.mp hy
  exact dateOf_mono ((List.pairwise_cons.mp hs).1 x hx)

/-- On a chronologically sorted list, `last_day = max(commit_days)` is the
date of the last commit. -/
lemma last_day_eq (c : Commit) (cs : List Commit) (hs : List.Sorted chronLE (c :: cs)) :
    pymax (dateOf c.committed_datetime) (cs.map fun x => dateOf x.committed_datetime) =
      dateOf ((c :: cs).getLast (List.cons_ne_nil c cs)).committed_datetime := by
  have hsorted : List.Sorted (· ≤ ·)
      (dateOf c.committed_datetime :: cs.map fun x => dateOf x.committed_datetime) := by
    have hmapped := List.Pairwise.map (fun x : Commit => dateOf x.committed_datetime)
      (fun _ _ hab => dateOf_mono hab) hs
    rw [List.map_cons] at hmapped
    exact hmapped
  have h1 := pymax_sorted (cs.map fun x => dateOf x.committed_datetime)
    (dateOf c.committed_datetime) hsorted
  rw [h1]
  exact getLast_map_comm (fun x : Commit => dateOf x.committed_datetime) (c :: cs)
    (List.cons_ne_nil c cs) (by simp)

/-- C2: in ByDay mode, on any non-empty chronologically sorted input, the
frame with index `i` (for day `first_day + i`) is bound to a commit of the
input whose date is on or before that day and whose timestamp is maximal
among all input commits with date on or before that day — the
hold-last-good-value policy.  In particular, on revisions dated
{day 0, day 0, day 1}, frame 0 is bound to the later day-0 revision and
frame 1 to the day-1 revision. -/
theorem c2_byday_hold_last :
    (∀ (c : Commit) (cs : List Commit),
       List.Sorted chronLE (c :: cs) →
       ∀ (fs : List (Nat × Commit)) (i : Nat) (r : Commit),
         arrange_images Timing.days (c :: cs) = Except.ok fs → (i, r) ∈ fs →
           r ∈ c :: cs ∧
           dateOf r.committed_datetime ≤ dateOf c.committed_datetime + i ∧
           ∀ x ∈ c :: cs, dateOf x.committed_datetime ≤ dateOf c.committed_datetime + i →
             x.committed_datetime ≤ r.committed_datetime) ∧
    arrange_images Timing.days [⟨1, 0⟩, ⟨2, 3600⟩, ⟨3, 86400⟩] =
      Except.ok [(0, ⟨2, 3600⟩), (1, ⟨3, 86400⟩)] := by
  constructor
  · intro c cs hs fs i r hok hmem
    have harr : arrange_days c cs = fs := by
      simpa [arrange_images] using hok
    subst harr
    unfold arrange_days at hmem
    obtain ⟨p, hp, hpe⟩ := List.mem_map.mp hmem
    obtain ⟨j, day⟩ := p
    simp only [Prod.mk.injEq] at hpe
    obtain ⟨hji, hlr⟩ := hpe
    subst hji
    rw [first_day_eq c cs hs] at hp
    have hget := (enumerate_mem _ _ _).mp hp
    have hdayeq := daysFrom_get? _ _ _ _ hget
    have hday : dateOf c.committed_datetime ≤ day := by omega
    obtain ⟨hmem2, hdate2, hmax⟩ := latest_on_or_before_spec c cs day hs hday
    rw [hlr] at hmem2 hdate2 hmax
    exact ⟨hmem2, by omega, fun x hx hxd => hmax x hx (by omega)⟩
  · decide

/-- Witness for `c2_byday_hold_last`: the sorted example with two commits on
day 0 (timestamps 0 and 3600) and one on day 1; the general statement applied
to frame 0 yields the hold-last binding for the later day-0 commit. -/
theorem c2_byday_hold_last_witness :
    (List.Sorted chronLE [⟨1, 0⟩, ⟨2, 3600⟩, ⟨3, 86400⟩] ∧
     arrange_images Timing.days [⟨1, 0⟩, ⟨2, 3600⟩, ⟨3, 86400⟩] =
       Except.ok [(0, ⟨2, 3600⟩), (1, ⟨3, 86400⟩)] ∧
     (0, (⟨2, 3600⟩ : Commit)) ∈ [(0, (⟨2, 3600⟩ : Commit)), (1, ⟨3, 86400⟩)]) ∧
    ((⟨2, 3600⟩ : Commit) ∈ [(⟨1, 0⟩ : Commit), ⟨2, 3600⟩, ⟨3, 86400⟩] ∧
     dateOf (⟨2, 3600⟩ : Commit).committed_datetime ≤
       dateOf (⟨1, 0⟩ : Commit).committed_datetime + (0 : Nat) ∧
     ∀ x ∈ [(⟨1, 0⟩ : Commit), ⟨2, 3600⟩, ⟨3, 86400⟩],
       dateOf x.committed_datetime ≤ dateOf (⟨1, 0⟩ : Commit).committed_datetime + (0 : Nat) →
         x.committed_datetime ≤ (⟨2, 3600⟩ : Commit).committed_datetime) :=
  ⟨⟨by decide, by decide, by decide⟩,
   c2_byday_hold_last.1 ⟨1, 0⟩ [⟨2, 3600⟩, ⟨3, 86400⟩] (by decide)
     [(0, ⟨2, 3600⟩), (1, ⟨3, 86400⟩)] 0 ⟨2, 3600⟩ (by decide) (by decide)⟩

/-- C7: in ByDay mode, any non-empty chronologically sorted input yields
exactly `(last_day - first_day) + 1` frames, where `first_day`/`last_day` are
the calendar dates of the first and last input timestamps. -/
theorem c7_byday_frame_count (c : Commit) (cs : List Commit)
    (hs : List.Sorted chronLE (c :: cs)) :
    ∃ fs, arrange_images Timing.days (c :: cs) = Except.ok fs ∧
      fs.length =
        (dateOf ((c :: cs).getLast (List.cons_ne_nil c cs)).committed_datetime
          - dateOf c.committed_datetime).toNat + 1 := by
  refine ⟨arrange_days c cs, rfl, ?_⟩
  unfold arrange_days
  rw [List.length_map, enumerate_length, daysFrom_length,
    first_day_eq c cs hs, last_day_eq c cs hs]

/-- Witness for `c7_byday_frame_count`: three sorted commits spanning three
calendar days produce `2 + 1 = 3` frames. -/
theorem c7_byday_frame_count_witness :
    List.Sorted chronLE [⟨1, 0⟩, ⟨2, 100000⟩, ⟨3, 200000⟩] ∧
    ∃ fs, arrange_images Timing.days [⟨1, 0⟩, ⟨2, 100000⟩, ⟨3, 200000⟩] = Except.ok fs ∧
      fs.length =
        (dateOf (([⟨1, 0⟩, ⟨2, 100000⟩, ⟨3, 200000⟩] : List Commit).getLast
            (List.cons_ne_nil _ _)).committed_datetime
          - dateOf (⟨1, 0⟩ : Commit).committed_datetime).toNat + 1 :=
  ⟨by decide, c7_byday_frame_count ⟨1, 0⟩ [⟨2, 100000⟩, ⟨3, 200000⟩] (by decide)⟩

/-- C8: in ByCommit mode the sampler never fails and produces exactly one
frame per input commit, in input order, with zero-based contiguous indices:
frame `i` displays the `i`-th input commit. -/
theorem c8_bycommit_frames (commits : List Commit) :
    arrange_images Timing.commits commits = Except.ok (enumerate commits) ∧
    (enumerate commits).length = commits.length ∧
    (∀ (i : Nat) (x : Commit), (i, x) ∈ enumerate commits → commits.get? i = some x) ∧
    (∀ (i : Nat) (x : Commit), commits.get? i = some x → (i, x) ∈ enumerate commits) := by
  refine ⟨rfl, enumerate_length _, ?_, ?_⟩
  · intro i x h
    exact (enumerate_mem _ _ _).mp h
  · intro i x h
    exact (enumerate_mem _ _ _).mpr h

/-- Witness for `c8_bycommit_frames`: a two-commit list where frame 1 indeed
displays the second commit. -/
theorem c8_bycommit_frames_witness :
    ([⟨4, 10⟩, ⟨6, 20⟩] : List Commit).get? 1 = some ⟨6, 20⟩ ∧
    (1, (⟨6, 20⟩ : Commit)) ∈ enumerate [(⟨4, 10⟩ : Commit), ⟨6, 20⟩] :=
  ⟨by decide, (c8_bycommit_frames [⟨4, 10⟩, ⟨6, 20⟩]).2.2.2 1 ⟨6, 20⟩ (by decide)⟩

/-- C3 counterexample: an input that is NOT sorted by timestamp (timestamps
86400 then 0) is processed silently by the ByDay sampler, which returns a
frame list instead of failing — and a wrong one: both frames show the
commit with the older timestamp, and the commit with the newest timestamp
never appears. -/
theorem c3_unsorted_silently_sampled :
    arrange_images Timing.days [⟨1, 86400⟩, ⟨2, 0⟩] =
      Except.ok [(0, ⟨2, 0⟩), (1, ⟨2, 0⟩)] := by decide

/-- C3 amended: `arrange_images` performs no ordering validation at all.
ByCommit mode succeeds on every list (sorted, unsorted or empty); ByDay mode
succeeds on every non-empty list, sorted or not, and fails only on the empty
list — with a `ValueError` from `min()` of an empty sequence, not with a
dedicated ordering error; the realtime mode on an empty list likewise fails
with that `ValueError`. -/
theorem c3_no_ordering_validation :
    (∀ commits : List Commit,
      arrange_images Timing.commits commits = Except.ok (enumerate commits)) ∧
    arrange_images Timing.days ([] : List Commit) = Except.error SamplerError.valueError ∧
    (∀ (c : Commit) (cs : List Commit),
      ∃ fs, arrange_images Timing.days (c :: cs) = Except.ok fs) ∧
    arrange_images Timing.realtime ([] : List Commit) = Except.error SamplerError.valueError :=
  ⟨fun _ => rfl, rfl, fun c cs => ⟨arrange_days c cs, rfl⟩, rfl⟩

/-- C9 amended: in ByInterval (`realtime`) mode, for any input of at least
two commits, the sampler never produces a frame list; the target resolution
it computes is exactly the minimum of the consecutive time deltas; when that
minimum is non-zero the run stops at the unconditional `exit()` after
computing the projected frame count `(max - min) / resolution`; when the
minimum is zero (two consecutive commits share a timestamp) the projected
count itself raises a `ZeroDivisionError`, so the count is never reported —
either way no frame is produced. -/
theorem c9_realtime_aborts (c1 c2 : Commit) (cs : List Commit) (d : Int) (ds : List Int)
    (hdelta : time_deltas ((c1 :: c2 :: cs).map fun x => x.committed_datetime) = d :: ds) :
    (∀ fs, arrange_images Timing.realtime (c1 :: c2 :: cs) ≠ Except.ok fs) ∧
    pymin d ds ∈ d :: ds ∧
    (∀ g ∈ d :: ds, pymin d ds ≤ g) ∧
    (pymin d ds = 0 →
      arrange_images Timing.realtime (c1 :: c2 :: cs) =
        Except.error SamplerError.zeroDivisionError) ∧
    (pymin d ds ≠ 0 →
      arrange_images Timing.realtime (c1 :: c2 :: cs) =
        Except.error (SamplerError.systemExit (pymin d ds)
          (((pymax c1.committed_datetime ((c2 :: cs).map fun x => x.committed_datetime)
              - pymin c1.committed_datetime ((c2 :: cs).map fun x => x.committed_datetime)
              : Int) : Rat)
            / ((pymin d ds : Int) : Rat)))) := by
  simp only [List.map_cons, time_deltas] at hdelta
  have hd1 : c2.committed_datetime - c1.committed_datetime = d := by
    injection hdelta
  have hd2 : time_deltas (c2.committed_datetime :: cs.map fun x => x.committed_datetime) = ds := by
    injection hdelta
  refine ⟨?_, pymin_mem _ _, pymin_le _ _, ?_, ?_⟩
  · intro fs h
    by_cases hz : pymin d ds = 0 <;>
      simp [arrange_images, time_deltas, hd1, hd2, hz] at h
  · intro hz
    simp [arrange_images, time_deltas, hd1, hd2, hz]
  · intro hz
    simp [arrange_images, time_deltas, hd1, hd2, hz]

/-- Witness for `c9_realtime_aborts`: two commits one day apart; the minimum
delta is 86400 and the sampler aborts with the projected count 1 after
reporting it. -/
theorem c9_realtime_aborts_witness :
    time_deltas (([⟨1, 0⟩, ⟨2, 86400⟩] : List Commit).map fun x => x.committed_datetime) =
      [86400] ∧
    arrange_images Timing.realtime [⟨1, 0⟩, ⟨2, 86400⟩] =
      Except.error (SamplerError.systemExit (pymin 86400 [])
        (((pymax (⟨1, 0⟩ : Commit).committed_datetime
             (([⟨2, 86400⟩] : List Commit).map fun x => x.committed_datetime)
            - pymin (⟨1, 0⟩ : Commit).committed_datetime
             (([⟨2, 86400⟩] : List Commit).map fun x => x.committed_datetime)
            : Int) : Rat)
          / ((pymin (86400 : Int) ([] : List Int) : Int) : Rat))) :=
  ⟨by decide,
   (c9_realtime_aborts ⟨1, 0⟩ ⟨2, 86400⟩ [] 86400 [] (by decide)).2.2.2.2 (by decide)⟩

/-- C9 counterexample to the claim as stated: with two commits sharing a
timestamp the minimum gap is zero, and instead of reporting the projected
frame count and then aborting, the sampler crashes with a
`ZeroDivisionError` while computing that count. -/
theorem c9_zero_gap_division_error :
    arrange_images Timing.realtime [⟨1, 0⟩, ⟨2, 0⟩] =
      Except.error SamplerError.zeroDivisionError := by decide

/-! Supporting lemmas about the orchestrator model. -/

lemma pdf_lookup_append_some (l1 l2 : List (Nat × Nat)) (k : Nat)
    (h : (pdf_lookup k l1).isSome) : pdf_lookup k (l1 ++ l2) = pdf_lookup k l1 := by
  induction l1 with
  | nil => simp [pdf_lookup] at h
  | cons p rest ih =>
    obtain ⟨a, b⟩ := p
    by_cases hk : k = a
    · simp [pdf_lookup, hk]
    · simp only [pdf_lookup, if_neg hk] at h
      simp only [List.cons_append, pdf_lookup, if_neg hk]
      exact ih h

lemma pdf_lookup_append_none (l1 l2 : List (Nat × Nat)) (k : Nat)
    (h : pdf_lookup k l1 = none) : pdf_lookup k (l1 ++ l2) = pdf_lookup k l2 := by
  induction l1 with
  | nil => simp
  | cons p rest ih =>
    obtain ⟨a, b⟩ := p
    by_cases hk : k = a
    · simp [pdf_lookup, hk] at h
    · simp only [pdf_lookup, if_neg hk] at h
      simp only [List.cons_append, pdf_lookup, if_neg hk]
      exact ih h

lemma pdf_lookup_singleton_ne (a : Nat) (b : Nat) (k : Nat) (h : k ≠ a) :
    pdf_lookup k [(a, b)] = none := by
  simp [pdf_lookup, h]

/-- Decomposition of the event trace of one step of the `generate_pdfs`
loop. -/
lemma gpGo_cons_events (render : Nat → RenderResult) (c : Commit) (cs : List Commit)
    (s : GPState) :
    gpEvents (gpGo render (c :: cs) s) =
      if (pdf_lookup c.hexsha s.pdfs).isSome then gpEvents (gpGo render cs s)
      else
        match render c.hexsha with
        | RenderResult.ok pages =>
          Event.checkedOut c.hexsha :: Event.rendered c.hexsha ::
            gpEvents (gpGo render cs ⟨c.hexsha, s.pdfs ++ [(c.hexsha, pages)]⟩)
        | RenderResult.compileFail =>
          Event.checkedOut c.hexsha :: Event.rendered c.hexsha ::
            gpEvents (gpGo render cs ⟨c.hexsha, s.pdfs⟩)
        | RenderResult.fatal => [Event.checkedOut c.hexsha, Event.rendered c.hexsha] := by
  rw [gpGo]
  by_cases hex : (pdf_lookup c.hexsha s.pdfs).isSome
  · rw [if_pos hex, if_pos hex]
    cases gpGo render cs s with
    | ok trip => obtain ⟨s1, succ, evs⟩ := trip; rfl
    | error err => obtain ⟨se, evs⟩ := err; rfl
  · rw [if_neg hex, if_neg hex]
    cases render c.hexsha with
    | ok pages =>
      dsimp only
      cases gpGo render cs ⟨c.hexsha, s.pdfs ++ [(c.hexsha, pages)]⟩ with
      | ok trip => obtain ⟨s1, succ, evs⟩ := trip; rfl
      | error err => obtain ⟨se, evs⟩ := err; rfl
    | compileFail =>
      dsimp only
      cases gpGo render cs ⟨c.hexsha, s.pdfs⟩ with
      | ok trip => obtain ⟨s1, succ, evs⟩ := trip; rfl
      | error err => obtain ⟨se, evs⟩ := err; rfl
    | fatal => rfl

/-- Every event of the PDF-generation loop is a checkout or a render
attempt. -/
lemma gpGo_events_shape (render : Nat → RenderResult) :
    ∀ (cs : List Commit) (s : GPState) (e : Event), e ∈ gpEvents (gpGo render cs s) →
      (∃ h, e = Event.checkedOut h) ∨ (∃ h, e = Event.rendered h) := by
  intro cs
  induction cs with
  | nil => intro s e he; simp [gpGo, gpEvents] at he
  | cons c cs ih =>
    intro s e he
    rw [gpGo_cons_events] at he
    by_cases hex : (pdf_lookup c.hexsha s.pdfs).isSome
    · rw [if_pos hex] at he
      exact ih s e he
    · rw [if_neg hex] at he
      cases hr : render c.hexsha with
      | ok pages =>
        rw [hr] at he
        rcases List.mem_cons.mp he with he1 | he1
        · exact Or.inl ⟨c.hexsha, he1⟩
        · rcases List.mem_cons.mp he1 with he2 | he2
          · exact Or.inr ⟨c.hexsha, he2⟩
          · exact ih _ e he2
      | compileFail =>
        rw [hr] at he
        rcases List.mem_cons.mp he with he1 | he1
        · exact Or.inl ⟨c.hexsha, he1⟩
        · rcases List.mem_cons.mp he1 with he2 | he2
          · exact Or.inr ⟨c.hexsha, he2⟩
          · exact ih _ e he2
      | fatal =>
        rw [hr] at he
        rcases List.mem_cons.mp he with he1 | he1
        · exact Or.inl ⟨c.hexsha, he1⟩
        · rcases List.mem_cons.mp he1 with he2 | he2
          · exact Or.inr ⟨c.hexsha, he2⟩
          · simp at he2

/-- Every event of `generate_pdfs` is a checkout or a render attempt. -/
lemma generate_pdfs_events_shape (render : Nat → RenderResult) (commits : List Commit)
    (s : GPState) (e : Event) (he : e ∈ gpEvents (generate_pdfs render commits s)) :
    (∃ h, e = Event.checkedOut h) ∨ (∃ h, e = Event.rendered h) := by
  unfold generate_pdfs at he
  cases hlast : commits.getLast? with
  | none => rw [hlast] at he; simp [gpEvents] at he
  | some last =>
    rw [hlast] at he
    cases hgo : gpGo render commits s with
    | error err =>
      obtain ⟨se, evs⟩ := err
      rw [hgo] at he
      exact gpGo_events_shape render commits s e (by rw [hgo]; exact he)
    | ok trip =>
      obtain ⟨s1, succ, evs⟩ := trip
      rw [hgo] at he
      simp only [gpEvents] at he
      rcases List.mem_append.mp he with he1 | he1
      · exact gpGo_events_shape render commits s e (by rw [hgo]; exact he1)
      · simp at he1
        exact Or.inl ⟨last.hexsha, he1⟩

/-- If a commit's PDF is already on disk when the loop starts, the loop
never attempts to render that commit. -/
lemma gpGo_no_rerender (render : Nat → RenderResult) :
    ∀ (cs : List Commit) (s : GPState) (k : Nat),
      (pdf_lookup k s.pdfs).isSome → Event.rendered k ∉ gpEvents (gpGo render cs s) := by
  intro cs
  induction cs with
  | nil => intro s k hk; simp [gpGo, gpEvents]
  | cons c cs ih =>
    intro s k hk he
    rw [gpGo_cons_events] at he
    by_cases hex : (pdf_lookup c.hexsha s.pdfs).isSome
    · rw [if_pos hex] at he
      exact ih s k hk he
    · rw [if_neg hex] at he
      have hne : k ≠ c.hexsha := by
        intro heq
        exact hex (heq ▸ hk)
      cases hr : render c.hexsha with
      | ok pages =>
        rw [hr] at he
        rcases List.mem_cons.mp he with he1 | he1
        · simp at he1
        · rcases List.mem_cons.mp he1 with he2 | he2
          · exact hne (by injection he2)
          · have hk2 : (pdf_lookup k (s.pdfs ++ [(c.hexsha, pages)])).isSome := by
              rw [pdf_lookup_append_some _ _ _ hk]
              exact hk
            exact ih ⟨c.hexsha, s.pdfs ++ [(c.hexsha, pages)]⟩ k hk2 he2
      | compileFail =>
        rw [hr] at he
        rcases List.mem_cons.mp he with he1 | he1
        · simp at he1
        · rcases List.mem_cons.mp he1 with he2 | he2
          · exact hne (by injection he2)
          · exact ih ⟨c.hexsha, s.pdfs⟩ k hk he2
      | fatal =>
        rw [hr] at he
        rcases List.mem_cons.mp he with he1 | he1
        · simp at he1
        · rcases List.mem_cons.mp he1 with he2 | he2
          · exact hne (by injection he2)
          · simp at he2

/-- `generate_pdfs` never attempts to render a commit whose PDF already
exists in the initial state. -/
lemma generate_pdfs_no_rerender (render : Nat → RenderResult) (commits : List Commit)
    (s : GPState) (k : Nat) (hk : (pdf_lookup k s.pdfs).isSome) :
    Event.rendered k ∉ gpEvents (generate_pdfs render commits s) := by
  unfold generate_pdfs
  cases hlast : commits.getLast? with
  | none => simp [gpEvents]
  | some last =>
    cases hgo : gpGo render commits s with
    | error err =>
      obtain ⟨se, evs⟩ := err
      intro he
      exact gpGo_no_rerender render commits s k hk (by rw [hgo]; exact he)
    | ok trip =>
      obtain ⟨s1, succ, evs⟩ := trip
      intro he
      simp only [gpEvents] at he
      rcases List.mem_append.mp he with he1 | he1
      · exact gpGo_no_rerender render commits s k hk (by rw [hgo]; exact he1)
      · simp at he1

/-- The loop only ever appends to the pdf directory, and every new entry is
keyed by the hash of one of the processed commits. -/
lemma gpGo_pdfs_grow (render : Nat → RenderResult) :
    ∀ (cs : List Commit) (s s1 : GPState) (succ : List Commit) (evs : List Event),
      gpGo render cs s = Except.ok (s1, succ, evs) →
      ∃ ext, s1.pdfs = s.pdfs ++ ext ∧
        ∀ k p, (k, p) ∈ ext → k ∈ cs.map Commit.hexsha := by
  intro cs
  induction cs with
  | nil =>
    intro s s1 succ evs h
    rw [gpGo] at h
    simp only [Except.ok.injEq, Prod.mk.injEq] at h
    exact ⟨[], by rw [← h.1]; simp, by simp⟩
  | cons c cs ih =>
    intro s s1 succ evs h
    rw [gpGo] at h
    by_cases hex : (pdf_lookup c.hexsha s.pdfs).isSome
    · rw [if_pos hex] at h
      cases hgo : gpGo render cs s with
      | error err => rw [hgo] at h; simp at h
      | ok trip =>
        obtain ⟨s2, succ2, evs2⟩ := trip
        rw [hgo] at h
        simp only [Except.ok.injEq, Prod.mk.injEq] at h
        obtain ⟨ext, he, hkeys⟩ := ih s s2 succ2 evs2 hgo
        refine ⟨ext, by rw [← h.1]; exact he, ?_⟩
        intro k p hkp
        simpa using Or.inr (by simpa using hkeys k p hkp)
    · rw [if_neg hex] at h
      cases hr : render c.hexsha with
      | ok pages =>
        rw [hr] at h
        dsimp only at h
        cases hgo : gpGo render cs ⟨c.hexsha, s.pdfs ++ [(c.hexsha, pages)]⟩ with
        | error err => rw [hgo] at h; simp at h
        | ok trip =>
          obtain ⟨s2, succ2, evs2⟩ := trip
          rw [hgo] at h
          simp only [Except.ok.injEq, Prod.mk.injEq] at h
          obtain ⟨ext, he, hkeys⟩ := ih _ s2 succ2 evs2 hgo
          refine ⟨(c.hexsha, pages) :: ext, ?_, ?_⟩
          · rw [← h.1]
            simpa [List.append_assoc] using he
          · intro k p hkp
            rcases List.mem_cons.mp hkp with heq | hmem
            · simp [Prod.mk.injEq] at heq
              simp [heq.1]
            · simpa using Or.inr (by simpa using hkeys k p hmem)
      | compileFail =>
        rw [hr] at h
        dsimp only at h
        cases hgo : gpGo render cs ⟨c.hexsha, s.pdfs⟩ with
        | error err => rw [hgo] at h; simp at h
        | ok trip =>
          obtain ⟨s2, succ2, evs2⟩ := trip
          rw [hgo] at h
          simp only [Except.ok.injEq, Prod.mk.injEq] at h
          obtain ⟨ext, he, hkeys⟩ := ih _ s2 succ2 evs2 hgo
          refine ⟨ext, by rw [← h.1]; exact he, ?_⟩
          intro k p hkp
          simpa using Or.inr (by simpa using hkeys k p hkp)
      | fatal =>
        rw [hr] at h
        simp at h

/-- On the uncaught-exception path, the working copy is left either where it
started (the `IndexError` before any checkout) or at the commit whose
processing raised — never deliberately restored. -/
lemma gpGo_error_checkout (render : Nat → RenderResult) :
    ∀ (cs : List Commit) (s : GPState) (se : GPState) (evs : List Event),
      gpGo render cs s = Except.error (se, evs) →
      se.checkout = s.checkout ∨ ∃ c ∈ cs, se.checkout = c.hexsha := by
  intro cs
  induction cs with
  | nil => intro s se evs h; rw [gpGo] at h; simp at h
  | cons c cs ih =>
    intro s se evs h
    rw [gpGo] at h
    by_cases hex : (pdf_lookup c.hexsha s.pdfs).isSome
    · rw [if_pos hex] at h
      cases hgo : gpGo render cs s with
      | error err =>
        obtain ⟨se2, evs2⟩ := err
        rw [hgo] at h
        simp only [Except.error.injEq, Prod.mk.injEq] at h
        rcases ih s se2 evs2 hgo with h1 | ⟨c2, hc2, h2⟩
        · exact Or.inl (by rw [← h.1]; exact h1)
        · exact Or.inr ⟨c2, List.mem_cons_of_mem _ hc2, by rw [← h.1]; exact h2⟩
      | ok trip =>
        obtain ⟨s2, succ2, evs2⟩ := trip
        rw [hgo] at h
        simp at h
    · rw [if_neg hex] at h
      cases hr : render c.hexsha with
      | ok pages =>
        rw [hr] at h
        dsimp only at h
        cases hgo : gpGo render cs ⟨c.hexsha, s.pdfs ++ [(c.hexsha, pages)]⟩ with
        | error err =>
          obtain ⟨se2, evs2⟩ := err
          rw [hgo] at h
          simp only [Except.error.injEq, Prod.mk.injEq] at h
          rcases ih _ se2 evs2 hgo with h1 | ⟨c2, hc2, h2⟩
          · exact Or.inr ⟨c, List.mem_cons_self _ _, by rw [← h.1]; exact h1⟩
          · exact Or.inr ⟨c2, List.mem_cons_of_mem _ hc2, by rw [← h.1]; exact h2⟩
        | ok trip =>
          obtain ⟨s2, succ2, evs2⟩ := trip
          rw [hgo] at h
          simp at h
      | compileFail =>
        rw [hr] at h
        dsimp only at h
        cases hgo : gpGo render cs ⟨c.hexsha, s.pdfs⟩ with
        | error err =>
          obtain ⟨se2, evs2⟩ := err
          rw [hgo] at h
          simp only [Except.error.injEq, Prod.mk.injEq] at h
          rcases ih _ se2 evs2 hgo with h1 | ⟨c2, hc2, h2⟩
          · exact Or.inr ⟨c, List.mem_cons_self _ _, by rw [← h.1]; exact h1⟩
          · exact Or.inr ⟨c2, List.mem_cons_of_mem _ hc2, by rw [← h.1]; exact h2⟩
        | ok trip =>
          obtain ⟨s2, succ2, evs2⟩ := trip
          rw [hgo] at h
          simp at h
      | fatal =>
        rw [hr] at h
        simp only [Except.error.injEq, Prod.mk.injEq] at h
        exact Or.inr ⟨c, List.mem_cons_self _ _, by rw [← h.1]⟩

/-- The image directory only grows. -/
lemma giGo_supset : ∀ (pdfs : List (Nat × Nat)) (pngs : List Nat) (k : Nat),
    k ∈ pngs → k ∈ (giGo pdfs pngs).1 := by
  intro pdfs
  induction pdfs with
  | nil => intro pngs k hk; simpa [giGo] using hk
  | cons p rest ih =>
    intro pngs k hk
    obtain ⟨h, pc⟩ := p
    by_cases hmem : h ∈ pngs
    · simpa [giGo, hmem] using ih pngs k hk
    · simp only [giGo, if_neg hmem]
      exact ih (pngs ++ [h]) k (List.mem_append_left _ hk)

/-- Every PDF key ends up with an image after `generate_images`. -/
lemma giGo_keys_present : ∀ (pdfs : List (Nat × Nat)) (pngs : List Nat) (k : Nat),
    k ∈ pdfs.map Prod.fst → k ∈ (giGo pdfs pngs).1 := by
  intro pdfs
  induction pdfs with
  | nil => intro pngs k hk; simp at hk
  | cons p rest ih =>
    intro pngs k hk
    obtain ⟨h, pc⟩ := p
    rw [List.map_cons] at hk
    rcases List.mem_cons.mp hk with heq | hmem
    · have heq2 : k = h := heq
      by_cases hp : h ∈ pngs
      · simp only [giGo, if_pos hp]
        exact giGo_supset rest pngs k (heq2 ▸ hp)
      · simp only [giGo, if_neg hp]
        exact giGo_supset rest (pngs ++ [h]) k (by simp [heq2])
    · by_cases hp : h ∈ pngs
      · simp only [giGo, if_pos hp]
        exact ih pngs k hmem
      · simp only [giGo, if_neg hp]
        exact ih (pngs ++ [h]) k hmem

/-- A PNG already present is never recomposed. -/
lemma giGo_no_recompose : ∀ (pdfs : List (Nat × Nat)) (pngs : List Nat) (k : Nat),
    k ∈ pngs → Event.composed k ∉ (giGo pdfs pngs).2 := by
  intro pdfs
  induction pdfs with
  | nil => intro pngs k hk; simp [giGo]
  | cons p rest ih =>
    intro pngs k hk
    obtain ⟨h, pc⟩ := p
    by_cases hmem : h ∈ pngs
    · simp only [giGo, if_pos hmem]
      exact ih pngs k hk
    · simp only [giGo, if_neg hmem]
      intro he
      rcases List.mem_cons.mp he with he1 | he1
      · have : k = h := by injection he1
        exact hmem (this ▸ hk)
      · exact ih (pngs ++ [h]) k (List.mem_append_left _ hk) he1

/-- When every PDF already has its PNG, `generate_images` does nothing. -/
lemma giGo_all_present : ∀ (pdfs : List (Nat × Nat)) (pngs : List Nat),
    (∀ k ∈ pdfs.map Prod.fst, k ∈ pngs) → giGo pdfs pngs = (pngs, []) := by
  intro pdfs
  induction pdfs with
  | nil => intro pngs _; rfl
  | cons p rest ih =>
    intro pngs hall
    obtain ⟨h, pc⟩ := p
    have hp : h ∈ pngs := hall h (by simp)
    simp only [giGo, if_pos hp]
    exact ih pngs (fun k hk => hall k (by simpa using Or.inr hk))

/-- Every event of `generate_images` is a composition. -/
lemma giGo_events_shape : ∀ (pdfs : List (Nat × Nat)) (pngs : List Nat) (e : Event),
    e ∈ (giGo pdfs pngs).2 → ∃ h, e = Event.composed h := by
  intro pdfs
  induction pdfs with
  | nil => intro pngs e he; simp [giGo] at he
  | cons p rest ih =>
    intro pngs e he
    obtain ⟨h, pc⟩ := p
    by_cases hmem : h ∈ pngs
    · rw [giGo, if_pos hmem] at he
      exact ih pngs e he
    · rw [giGo, if_neg hmem] at he
      rcases List.mem_cons.mp he with he1 | he1
      · exact ⟨h, he1⟩
      · exact ih (pngs ++ [h]) e he1

lemma pdf_lookup_mem : ∀ (l : List (Nat × Nat)) (k p : Nat),
    pdf_lookup k l = some p → (k, p) ∈ l := by
  intro l
  induction l with
  | nil => intro k p h; simp [pdf_lookup] at h
  | cons q rest ih =>
    intro k p h
    obtain ⟨a, b⟩ := q
    by_cases hk : k = a
    · rw [pdf_lookup, if_pos hk] at h
      have hb : b = p := by injection h
      simp [hk, hb]
    · rw [pdf_lookup, if_neg hk] at h
      exact List.mem_cons_of_mem _ (ih k p h)

lemma fresh_after_append (c : Commit) (cs : List Commit) (s : GPState) (pages : Nat)
    (hfresh : ∀ x ∈ c :: cs, pdf_lookup x.hexsha s.pdfs = none)
    (hcnotin : c.hexsha ∉ cs.map Commit.hexsha) :
    ∀ x ∈ cs, pdf_lookup x.hexsha (s.pdfs ++ [(c.hexsha, pages)]) = none := by
  intro x hx
  rw [pdf_lookup_append_none _ _ _ (hfresh x (List.mem_cons_of_mem _ hx))]
  apply pdf_lookup_singleton_ne
  intro heq
  exact hcnotin (heq ▸ List.mem_map_of_mem Commit.hexsha hx)

/-- Starting from a pdf directory containing none of the commits, and with
pairwise distinct hashes, the loop leaves the directory extended by exactly
one entry per successful commit, carrying that commit's rendered page
count. -/
lemma gpGo_fresh_pdfs (render : Nat → RenderResult) :
    ∀ (cs : List Commit) (s s1 : GPState) (succ : List Commit) (evs : List Event),
      (cs.map Commit.hexsha).Nodup →
      (∀ c ∈ cs, pdf_lookup c.hexsha s.pdfs = none) →
      gpGo render cs s = Except.ok (s1, succ, evs) →
      s1.pdfs = s.pdfs ++ succ.map (fun c => (c.hexsha, pageOf render c)) := by
  intro cs
  induction cs with
  | nil =>
    intro s s1 succ evs _ _ h
    rw [gpGo] at h
    simp only [Except.ok.injEq, Prod.mk.injEq] at h
    rw [← h.1, ← h.2.1]
    simp
  | cons c cs ih =>
    intro s s1 succ evs hnd hfresh h
    have hcnotin : c.hexsha ∉ cs.map Commit.hexsha := (List.nodup_cons.mp (by simpa using hnd)).1
    have hnd2 : (cs.map Commit.hexsha).Nodup := (List.nodup_cons.mp (by simpa using hnd)).2
    rw [gpGo] at h
    have hex : ¬ (pdf_lookup c.hexsha s.pdfs).isSome = true := by
      rw [hfresh c (List.mem_cons_self _ _)]
      simp
    rw [if_neg hex] at h
    cases hr : render c.hexsha with
    | ok pages =>
      rw [hr] at h
      dsimp only at h
      cases hgo : gpGo render cs ⟨c.hexsha, s.pdfs ++ [(c.hexsha, pages)]⟩ with
      | error err => rw [hgo] at h; simp at h
      | ok trip =>
        obtain ⟨s2, succ2, evs2⟩ := trip
        rw [hgo] at h
        simp only [Except.ok.injEq, Prod.mk.injEq] at h
        have hrec := ih ⟨c.hexsha, s.pdfs ++ [(c.hexsha, pages)]⟩ s2 succ2 evs2 hnd2
          (fresh_after_append c cs s pages hfresh hcnotin) hgo
        rw [← h.1, ← h.2.1, hrec]
        simp [pageOf, hr, List.append_assoc]
    | compileFail =>
      rw [hr] at h
      dsimp only at h
      cases hgo : gpGo render cs ⟨c.hexsha, s.pdfs⟩ with
      | error err => rw [hgo] at h; simp at h
      | ok trip =>
        obtain ⟨s2, succ2, evs2⟩ := trip
        rw [hgo] at h
        simp only [Except.ok.injEq, Prod.mk.injEq] at h
        have hrec := ih ⟨c.hexsha, s.pdfs⟩ s2 succ2 evs2 hnd2
          (fun x hx => hfresh x (List.mem_cons_of_mem _ hx)) hgo
        rw [← h.1, ← h.2.1, hrec]
    | fatal =>
      rw [hr] at h
      simp at h

/-- `find_maximum_number_of_pages` is the fold of `max` over the stored page
counts. -/
lemma find_max_eq_fold (l : List (Nat × Nat)) :
    find_maximum_number_of_pages l = (l.map Prod.snd).foldl max 0 := by
  have hfun : (fun (m : Nat) (p : Nat × Nat) => if p.2 > m then p.2 else m)
      = fun (m : Nat) (p : Nat × Nat) => max m p.2 := by
    funext m p
    split <;> omega
  unfold find_maximum_number_of_pages
  rw [hfun, List.foldl_map]

/-- Resume property of the PDF loop: after a successful pass from a fresh
directory, running the loop again over the same commits with the resulting
directory changes nothing on disk, reports the same successful commits, and
attempts to render only commits that still have no PDF (the ones that failed
to compile in the first pass). -/
lemma gpGo_resume (render : Nat → RenderResult) :
    ∀ (cs : List Commit) (s s1 : GPState) (succ : List Commit) (evs : List Event),
      (cs.map Commit.hexsha).Nodup →
      (∀ c ∈ cs, pdf_lookup c.hexsha s.pdfs = none) →
      gpGo render cs s = Except.ok (s1, succ, evs) →
      ∀ k, ∃ k2 evs2,
        gpGo render cs ⟨k, s1.pdfs⟩ = Except.ok (⟨k2, s1.pdfs⟩, succ, evs2) ∧
        ∀ h2, Event.rendered h2 ∈ evs2 → pdf_lookup h2 s1.pdfs = none := by
  intro cs
  induction cs with
  | nil =>
    intro s s1 succ evs _ _ h k
    rw [gpGo] at h
    simp only [Except.ok.injEq, Prod.mk.injEq] at h
    obtain ⟨h1, h2, h3⟩ := h
    subst h2
    refine ⟨k, [], ?_, by simp⟩
    rw [gpGo]
  | cons c cs ih =>
    intro s s1 succ evs hnd hfresh h k
    have hcnotin : c.hexsha ∉ cs.map Commit.hexsha := (List.nodup_cons.mp (by simpa using hnd)).1
    have hnd2 : (cs.map Commit.hexsha).Nodup := (List.nodup_cons.mp (by simpa using hnd)).2
    rw [gpGo] at h
    have hex : ¬ (pdf_lookup c.hexsha s.pdfs).isSome = true := by
      rw [hfresh c (List.mem_cons_self _ _)]
      simp
    rw [if_neg hex] at h
    cases hr : render c.hexsha with
    | ok pages =>
      rw [hr] at h
      dsimp only at h
      cases hgo : gpGo render cs ⟨c.hexsha, s.pdfs ++ [(c.hexsha, pages)]⟩ with
      | error err => rw [hgo] at h; simp at h
      | ok trip =>
        obtain ⟨s2, succ2, evs2⟩ := trip
        rw [hgo] at h
        simp only [Except.ok.injEq, Prod.mk.injEq] at h
        obtain ⟨hs2, hsucc, hevs⟩ := h
        obtain ⟨k2, evs3, hrec, hrend⟩ := ih ⟨c.hexsha, s.pdfs ++ [(c.hexsha, pages)]⟩
          s2 succ2 evs2 hnd2 (fresh_after_append c cs s pages hfresh hcnotin) hgo k
        obtain ⟨ext, hext, hkeys⟩ := gpGo_pdfs_grow render cs _ s2 succ2 evs2 hgo
        have hcs : pdf_lookup c.hexsha s2.pdfs = some pages := by
          rw [hext, List.append_assoc,
            pdf_lookup_append_none _ _ _ (hfresh c (List.mem_cons_self _ _))]
          simp [pdf_lookup]
        refine ⟨k2, evs3, ?_, ?_⟩
        · rw [gpGo]
          have hex2 : (pdf_lookup c.hexsha (GPState.mk k s1.pdfs).pdfs).isSome = true := by
            dsimp only
            rw [← hs2, hcs]
            rfl
          rw [if_pos hex2]
          rw [← hs2, hrec, ← hsucc]
        · intro h2 hh2
          rw [← hs2]
          exact hrend h2 hh2
    | compileFail =>
      rw [hr] at h
      dsimp only at h
      cases hgo : gpGo render cs ⟨c.hexsha, s.pdfs⟩ with
      | error err => rw [hgo] at h; simp at h
      | ok trip =>
        obtain ⟨s2, succ2, evs2⟩ := trip
        rw [hgo] at h
        simp only [Except.ok.injEq, Prod.mk.injEq] at h
        obtain ⟨hs2, hsucc, hevs⟩ := h
        obtain ⟨k2, evs3, hrec, hrend⟩ := ih ⟨c.hexsha, s.pdfs⟩ s2 succ2 evs2 hnd2
          (fun x hx => hfresh x (List.mem_cons_of_mem _ hx)) hgo c.hexsha
        obtain ⟨ext, hext, hkeys⟩ := gpGo_pdfs_grow render cs _ s2 succ2 evs2 hgo
        have hnone : pdf_lookup c.hexsha s2.pdfs = none := by
          rw [hext, pdf_lookup_append_none _ _ _ (hfresh c (List.mem_cons_self _ _))]
          cases hl : pdf_lookup c.hexsha ext with
          | none => rfl
          | some p => exact absurd (hkeys c.hexsha p (pdf_lookup_mem ext c.hexsha p hl)) hcnotin
        refine ⟨k2, Event.checkedOut c.hexsha :: Event.rendered c.hexsha :: evs3, ?_, ?_⟩
        · rw [gpGo]
          have hex2 : ¬ (pdf_lookup c.hexsha (GPState.mk k s1.pdfs).pdfs).isSome = true := by
            dsimp only
            rw [← hs2, hnone]
            simp
          rw [if_neg hex2, hr]
          dsimp only
          rw [← hs2, hrec, ← hsucc]
        · intro h2 hh2
          rcases List.mem_cons.mp hh2 with he1 | he1
          · simp at he1
          · rcases List.mem_cons.mp he1 with he2 | he2
            · have : h2 = c.hexsha := by injection he2
              rw [this, ← hs2]
              exact hnone
            · rw [← hs2]
              exact hrend h2 he2
    | fatal =>
      rw [hr] at h
      simp at h

/-- C1: for every `max_page_count >= 1` and positive canvas dimensions, the
planner succeeds and returns a grid with `grid_width * grid_height >=
max_page_count`, and the recomputed tile dimensions tile the canvas exactly:
`grid_width * tile_width = canvas_width` and `grid_height * tile_height =
canvas_height`. -/
theorem c1_tile_layout_invariants (W H n : Int) (hn : 1 ≤ n) (hW : 0 < W) (hH : 0 < H) :
    ∃ (gw gh : Int) (tw th : Real),
      compute_tile_sizes W H n = Except.ok (gw, gh, tw, th) ∧
      n ≤ gw * gh ∧ (gw : Real) * tw = (W : Real) ∧ (gh : Real) * th = (H : Real) := by
  have hng : ¬ (n ≤ 0) := by omega
  have hr : (0 : Real) < 0.7070 := by norm_num
  have hWr : (0 : Real) < (W : Real) := by exact_mod_cast hW
  have hHr : (0 : Real) < (H : Real) := by exact_mod_cast hH
  have hnr : (0 : Real) < (n : Real) := by exact_mod_cast (by omega : (0 : Int) < n)
  have hx : (0 : Real) < (W : Real) * (H : Real) / ((0.7070 : Real) * (n : Real)) := by
    positivity
  set s : Real := Real.sqrt ((W : Real) * (H : Real) / ((0.7070 : Real) * (n : Real)))
    with hsdef
  have hs : 0 < s := Real.sqrt_pos.mpr hx
  have hssq : s * s = (W : Real) * (H : Real) / ((0.7070 : Real) * (n : Real)) :=
    Real.mul_self_sqrt hx.le
  have ha : (0 : Real) < (H : Real) / s := by positivity
  have hb : (0 : Real) < (W : Real) / (s * 0.7070) := by positivity
  have hab : ((H : Real) / s) * ((W : Real) / (s * 0.7070)) = (n : Real) := by
    rw [div_mul_div_comm]
    have h1 : s * (s * (0.7070 : Real)) = (s * s) * 0.7070 := by ring
    rw [h1, hssq]
    field_simp
    ring
  have hga : ((H : Real) / s) ≤ (⌈(H : Real) / s⌉ : Real) := Int.le_ceil _
  have hgb : ((W : Real) / (s * 0.7070)) ≤ (⌈(W : Real) / (s * 0.7070)⌉ : Real) :=
    Int.le_ceil _
  have hgapos : 0 < ⌈(H : Real) / s⌉ := Int.ceil_pos.mpr ha
  have hgbpos : 0 < ⌈(W : Real) / (s * 0.7070)⌉ := Int.ceil_pos.mpr hb
  have hprod : (n : Real) ≤
      (⌈(W : Real) / (s * 0.7070)⌉ : Real) * (⌈(H : Real) / s⌉ : Real) := by
    calc (n : Real) = ((H : Real) / s) * ((W : Real) / (s * 0.7070)) := hab.symm
      _ ≤ (⌈(H : Real) / s⌉ : Real) * (⌈(W : Real) / (s * 0.7070)⌉ : Real) :=
          mul_le_mul hga hgb hb.le (le_trans ha.le hga)
      _ = (⌈(W : Real) / (s * 0.7070)⌉ : Real) * (⌈(H : Real) / s⌉ : Real) := by ring
  have hprodZ : n ≤ ⌈(W : Real) / (s * 0.7070)⌉ * ⌈(H : Real) / s⌉ := by
    exact_mod_cast hprod
  have hgbR : (0 : Real) < (⌈(W : Real) / (s * 0.7070)⌉ : Real) := by exact_mod_cast hgbpos
  have hgaR : (0 : Real) < (⌈(H : Real) / s⌉ : Real) := by exact_mod_cast hgapos
  refine ⟨⌈(W : Real) / (s * 0.7070)⌉, ⌈(H : Real) / s⌉,
    (W : Real) / ((⌈(W : Real) / (s * 0.7070)⌉ : Int) : Real),
    (H : Real) / ((⌈(H : Real) / s⌉ : Int) : Real), ?_, hprodZ, ?_, ?_⟩
  · unfold compute_tile_sizes
    rw [if_neg hng]
  · rw [mul_comm]
    exact div_mul_cancel₀ _ hgbR.ne'
  · rw [mul_comm]
    exact div_mul_cancel₀ _ hgaR.ne'

/-- Witness for `c1_tile_layout_invariants` at the configured canvas
3840 x 2160 with a 10-page maximum. -/
theorem c1_tile_layout_invariants_witness :
    ((1 : Int) ≤ 10 ∧ (0 : Int) < 3840 ∧ (0 : Int) < 2160) ∧
    ∃ (gw gh : Int) (tw th : Real),
      compute_tile_sizes 3840 2160 10 = Except.ok (gw, gh, tw, th) ∧
      10 ≤ gw * gh ∧ (gw : Real) * tw = ((3840 : Int) : Real) ∧
      (gh : Real) * th = ((2160 : Int) : Real) :=
  ⟨⟨by norm_num, by norm_num, by norm_num⟩,
   c1_tile_layout_invariants 3840 2160 10 (by norm_num) (by norm_num) (by norm_num)⟩

lemma generate_pdfs_ok_checkout (render : Nat → RenderResult) (commits : List Commit)
    (s s1 : GPState) (succ : List Commit) (evs : List Event)
    (h : generate_pdfs render commits s = Except.ok (s1, succ, evs)) :
    ∃ hne : commits ≠ [], s1.checkout = (commits.getLast hne).hexsha := by
  unfold generate_pdfs at h
  cases hlast : commits.getLast? with
  | none => rw [hlast] at h; simp at h
  | some last =>
    rw [hlast] at h
    cases hgo : gpGo render commits s with
    | error err =>
      obtain ⟨se, evs2⟩ := err
      rw [hgo] at h
      simp at h
    | ok trip =>
      obtain ⟨s2, succ2, evs2⟩ := trip
      rw [hgo] at h
      simp only [Except.ok.injEq, Prod.mk.injEq] at h
      have hne : commits ≠ [] := by
        intro hemp
        rw [hemp] at hlast
        simp at hlast
      refine ⟨hne, ?_⟩
      rw [← h.1]
      have hgl : commits.getLast hne = last := by
        have he := List.getLast?_eq_getLast commits hne
        rw [hlast] at he
        exact (Option.some_injective _ he).symm
      rw [hgl]

/-- C4 counterexample: with the working copy initially at revision 999, a
commit whose compilation step raises an exception that is not a
`GitCommandError` (here the first of two commits) aborts `generate_pdfs`
with the working copy left checked out at that commit — revision 1, not the
pre-run revision 999.  No restoration happens on this exit path. -/
theorem c4_fatal_leaves_checkout :
    generate_pdfs (fun _ => RenderResult.fatal) [⟨1, 0⟩, ⟨2, 5⟩] ⟨999, []⟩ =
      Except.error (⟨1, []⟩, [Event.checkedOut 1, Event.rendered 1]) ∧
    (1 : Nat) ≠ 999 := by decide

/-- C4 amended: `generate_pdfs` does not record or restore the pre-run
revision.  On successful completion it checks out the LAST commit of the
input list (`repo.git.checkout(last_commit)`); on an uncaught exception no
restoration is attempted — the working copy is left either untouched (the
empty-list `IndexError`) or at whichever commit was being processed. -/
theorem c4_checkout_restoration :
    (∀ (render : Nat → RenderResult) (commits : List Commit) (s s1 : GPState)
       (succ : List Commit) (evs : List Event),
       generate_pdfs render commits s = Except.ok (s1, succ, evs) →
       ∃ hne : commits ≠ [], s1.checkout = (commits.getLast hne).hexsha) ∧
    (∀ (render : Nat → RenderResult) (commits : List Commit) (s se : GPState)
       (evs : List Event),
       generate_pdfs render commits s = Except.error (se, evs) →
       se.checkout = s.checkout ∨ ∃ c ∈ commits, se.checkout = c.hexsha) := by
  constructor
  · intro render commits s s1 succ evs h
    exact generate_pdfs_ok_checkout render commits s s1 succ evs h
  · intro render commits s se evs h
    unfold generate_pdfs at h
    cases hlast : commits.getLast? with
    | none =>
      rw [hlast] at h
      simp only [Except.error.injEq, Prod.mk.injEq] at h
      exact Or.inl (by rw [← h.1])
    | some last =>
      rw [hlast] at h
      cases hgo : gpGo render commits s with
      | error err =>
        obtain ⟨se2, evs2⟩ := err
        rw [hgo] at h
        simp only [Except.error.injEq, Prod.mk.injEq] at h
        rcases gpGo_error_checkout render commits s se2 evs2 hgo with h1 | ⟨c2, hc2, h2⟩
        · exact Or.inl (by rw [← h.1]; exact h1)
        · exact Or.inr ⟨c2, hc2, by rw [← h.1]; exact h2⟩
      | ok trip =>
        obtain ⟨s2, succ2, evs2⟩ := trip
        rw [hgo] at h
        simp at h

/-- Witness for `c4_checkout_restoration`: a successful two-commit run
starting from revision 500 ends with the working copy at the last input
commit (hash 12), not at 500. -/
theorem c4_checkout_restoration_witness :
    generate_pdfs (fun _ => RenderResult.ok 2) [⟨11, 0⟩, ⟨12, 5⟩] ⟨500, []⟩ =
      Except.ok (⟨12, [(11, 2), (12, 2)]⟩, [⟨11, 0⟩, ⟨12, 5⟩],
        [Event.checkedOut 11, Event.rendered 11, Event.checkedOut 12, Event.rendered 12,
         Event.checkedOut 12]) ∧
    ∃ hne : ([⟨11, 0⟩, ⟨12, 5⟩] : List Commit) ≠ [],
      (GPState.mk 12 [(11, 2), (12, 2)]).checkout =
        (([⟨11, 0⟩, ⟨12, 5⟩] : List Commit).getLast hne).hexsha :=
  ⟨by decide,
   c4_checkout_restoration.1 (fun _ => RenderResult.ok 2) [⟨11, 0⟩, ⟨12, 5⟩] ⟨500, []⟩
     ⟨12, [(11, 2), (12, 2)]⟩ [⟨11, 0⟩, ⟨12, 5⟩]
     [Event.checkedOut 11, Event.rendered 11, Event.checkedOut 12, Event.rendered 12,
      Event.checkedOut 12] (by decide)⟩

lemma compute_tile_sizes_fail (W H n : Int) (hn : n ≤ 0) :
    compute_tile_sizes W H n = Except.error LayoutError.layoutInfeasible := by
  unfold compute_tile_sizes
  rw [if_pos hn]

lemma compute_tile_sizes_ok (W H n : Int) (hn : ¬ n ≤ 0) :
    ∃ out, compute_tile_sizes W H n = Except.ok out := by
  unfold compute_tile_sizes
  rw [if_neg hn]
  exact ⟨_, rfl⟩

/-- C5: the planner fails with `LayoutInfeasible` for every non-positive
`max_page_count` (and only for those); at the pipeline level, when no
revision rendered successfully the maximum page count is 0 and the run
aborts right after planning, before any image is composed (no `composed`
event) and before any frame is arranged (no frame list is produced). -/
theorem c5_layout_infeasible :
    (∀ (total_width total_height max_page_num : Int), max_page_num ≤ 0 →
       compute_tile_sizes total_width total_height max_page_num =
         Except.error LayoutError.layoutInfeasible) ∧
    (∀ (total_width total_height : Int) (m : Nat), m ≠ 0 →
       ∃ out, compute_tile_sizes total_width total_height (m : Int) = Except.ok out) ∧
    (∀ (render : Nat → RenderResult) (timing : Timing) (commits : List Commit)
       (s0 : GPState) (pngs0 : List Nat) (s1 : GPState) (succ : List Commit)
       (evs1 : List Event),
       generate_pdfs render commits s0 = Except.ok (s1, succ, evs1) →
       find_maximum_number_of_pages s1.pdfs = 0 →
       paper2movie render timing commits s0 pngs0 =
         (Except.error RunError.layoutInfeasible, evs1 ++ [Event.planned 0]) ∧
       ∀ k, Event.composed k ∉ evs1 ++ [Event.planned 0]) := by
  refine ⟨compute_tile_sizes_fail, ?_, ?_⟩
  · intro W H m hm
    exact compute_tile_sizes_ok W H (m : Int) (by omega)
  · intro render timing commits s0 pngs0 s1 succ evs1 hgen hmax
    constructor
    · unfold paper2movie
      rw [hgen]
      dsimp only
      rw [hmax]
      rw [if_pos rfl]
    · intro k hk
      rcases List.mem_append.mp hk with h1 | h1
      · rcases generate_pdfs_events_shape render commits s0 (Event.composed k)
          (by rw [hgen]; exact h1) with ⟨h2, he⟩ | ⟨h2, he⟩ <;> simp at he
      · simp at h1

/-- Witness for `c5_layout_infeasible`: a run whose single commit fails to
compile leaves no PDFs, so the maximum page count is 0 and the pipeline
aborts after planning with no composition events. -/
theorem c5_layout_infeasible_witness :
    (generate_pdfs (fun _ => RenderResult.compileFail) [⟨9, 0⟩] ⟨500, []⟩ =
       Except.ok (⟨9, []⟩, [],
        [Event.checkedOut 9, Event.rendered 9, Event.checkedOut 9]) ∧
     find_maximum_number_of_pages (GPState.mk 9 []).pdfs = 0) ∧
    (paper2movie (fun _ => RenderResult.compileFail) Timing.commits [⟨9, 0⟩] ⟨500, []⟩ [] =
       (Except.error RunError.layoutInfeasible,
        [Event.checkedOut 9, Event.rendered 9, Event.checkedOut 9] ++ [Event.planned 0]) ∧
     ∀ k, Event.composed k ∉
       [Event.checkedOut 9, Event.rendered 9, Event.checkedOut 9] ++ [Event.planned 0]) :=
  ⟨⟨by decide, by decide⟩,
   c5_layout_infeasible.2.2 (fun _ => RenderResult.compileFail) Timing.commits [⟨9, 0⟩]
     ⟨500, []⟩ [] ⟨9, []⟩ []
     [Event.checkedOut 9, Event.rendered 9, Event.checkedOut 9] (by decide) (by decide)⟩

/-- Predicate picking out the single planning event of a run. -/
def isPlanned : Event → Bool
  | Event.planned _ => true
  | Event.checkedOut _ => false
  | Event.rendered _ => false
  | Event.composed _ => false

lemma generate_pdfs_ok_elim (render : Nat → RenderResult) (commits : List Commit)
    (s s1 : GPState) (succ : List Commit) (evs : List Event)
    (h : generate_pdfs render commits s = Except.ok (s1, succ, evs)) :
    ∃ (last : Commit) (s2 : GPState) (evs2 : List Event),
      commits.getLast? = some last ∧
      gpGo render commits s = Except.ok (s2, succ, evs2) ∧
      s1 = ⟨last.hexsha, s2.pdfs⟩ ∧ evs = evs2 ++ [Event.checkedOut last.hexsha] := by
  unfold generate_pdfs at h
  cases hlast : commits.getLast? with
  | none => rw [hlast] at h; simp at h
  | some last =>
    rw [hlast] at h
    cases hgo : gpGo render commits s with
    | error err =>
      obtain ⟨se, e2⟩ := err
      rw [hgo] at h
      simp at h
    | ok trip =>
      obtain ⟨s2, succ2, evs2⟩ := trip
      rw [hgo] at h
      simp only [Except.ok.injEq, Prod.mk.injEq] at h
      exact ⟨last, s2, evs2, rfl, by rw [← h.2.1], h.1.symm, h.2.2.symm⟩

/-- C10 counterexample to the claim as stated: the pdf directory holds a
stale 50-page artifact for hash 99, which is not among this run's commits;
the planner is invoked with 50 although the only successfully rendered
revision of the run has 3 pages. -/
theorem c10_stale_artifact_inflates_max :
    paper2movie (fun h => if h = 1 then RenderResult.ok 3 else RenderResult.compileFail)
      Timing.commits [⟨1, 0⟩] ⟨0, [(99, 50)]⟩ [] =
      (Except.ok ⟨⟨1, [(99, 50), (1, 3)]⟩, [⟨1, 0⟩], 50, [99, 1], [(0, ⟨1, 0⟩)]⟩,
       [Event.checkedOut 1, Event.rendered 1, Event.checkedOut 1, Event.planned 50,
        Event.composed 99, Event.composed 1]) ∧
    (([⟨1, 0⟩] : List Commit).map
        (pageOf (fun h => if h = 1 then RenderResult.ok 3 else RenderResult.compileFail))).foldl
      max 0 = 3 ∧
    (50 : Nat) ≠ 3 := by decide

/-- C10 amended: the value handed to the planner is the maximum page count
over the PDFs present in the pdf directory, and the planner is invoked
exactly once per run; when the run starts with an empty pdf directory (and
commit hashes are distinct) that value equals the maximum page count over
exactly the revisions successfully rendered in the run.  With stale PDFs on
disk the value can exceed that maximum (see the counterexample). -/
theorem c10_planned_max_pages :
    ∀ (render : Nat → RenderResult) (timing : Timing) (commits : List Commit)
      (chk : Nat) (pngs0 : List Nat) (out : MainOut) (tr : List Event),
      (commits.map Commit.hexsha).Nodup →
      paper2movie render timing commits ⟨chk, []⟩ pngs0 = (Except.ok out, tr) →
      tr.countP isPlanned = 1 ∧
      Event.planned out.max_page_num ∈ tr ∧
      out.max_page_num = (out.successful.map (pageOf render)).foldl max 0 := by
  intro render timing commits chk pngs0 out tr hnd hrun
  unfold paper2movie at hrun
  cases hgen : generate_pdfs render commits ⟨chk, []⟩ with
  | error err =>
    obtain ⟨se, evs⟩ := err
    rw [hgen] at hrun
    simp at hrun
  | ok trip =>
    obtain ⟨s1, succ, evs1⟩ := trip
    rw [hgen] at hrun
    dsimp only at hrun
    by_cases hmax : find_maximum_number_of_pages s1.pdfs = 0
    · rw [if_pos hmax] at hrun
      simp at hrun
    · rw [if_neg hmax] at hrun
      cases harr : arrange_images timing succ with
      | error e =>
        rw [harr] at hrun
        simp at hrun
      | ok frames =>
        rw [harr] at hrun
        simp only [Prod.mk.injEq, Except.ok.injEq] at hrun
        obtain ⟨hout, htr⟩ := hrun
        refine ⟨?_, ?_, ?_⟩
        · rw [← htr, List.countP_append, List.countP_append]
          have h1 : evs1.countP isPlanned = 0 := by
            rw [List.countP_eq_zero]
            intro e he
            rcases generate_pdfs_events_shape render commits ⟨chk, []⟩ e
              (by rw [hgen]; exact he) with ⟨h2, he2⟩ | ⟨h2, he2⟩ <;>
              simp [he2, isPlanned]
          have h2 : (generate_images s1.pdfs pngs0).2.countP isPlanned = 0 := by
            rw [List.countP_eq_zero]
            intro e he
            obtain ⟨h3, he3⟩ := giGo_events_shape s1.pdfs pngs0 e he
            simp [he3, isPlanned]
          rw [h1, h2]
          simp [isPlanned]
        · rw [← htr, ← hout]
          exact List.mem_append_left _ (List.mem_append_right _ (by simp))
        · rw [← hout]
          obtain ⟨last, s2, evs2, hlast, hgo, hs1, hevs⟩ :=
            generate_pdfs_ok_elim render commits ⟨chk, []⟩ s1 succ evs1 hgen
          have hfresh : ∀ c ∈ commits, pdf_lookup c.hexsha (GPState.mk chk []).pdfs = none :=
            fun c _ => rfl
          have hpdfs := gpGo_fresh_pdfs render commits ⟨chk, []⟩ s2 succ evs2 hnd hfresh hgo
          dsimp only at hpdfs
          rw [List.nil_append] at hpdfs
          have hs1pdfs : s1.pdfs = succ.map (fun c => (c.hexsha, pageOf render c)) := by
            rw [hs1]
            exact hpdfs
          dsimp only
          rw [hs1pdfs, find_max_eq_fold, List.map_map]
          have : (Prod.snd ∘ fun c => (c.hexsha, pageOf render c)) = pageOf render := by
            funext c
            rfl
          rw [this]

/-- Witness for `c10_planned_max_pages`: a fresh two-commit run where the
first commit renders with 7 pages and the second fails; the planner is
invoked once with 7, the maximum over the single successful revision. -/
theorem c10_planned_max_pages_witness :
    ((([⟨21, 0⟩, ⟨22, 5⟩] : List Commit).map Commit.hexsha).Nodup ∧
     paper2movie (fun h => if h = 21 then RenderResult.ok 7 else RenderResult.compileFail)
       Timing.commits [⟨21, 0⟩, ⟨22, 5⟩] ⟨3, []⟩ [] =
       (Except.ok ⟨⟨22, [(21, 7)]⟩, [⟨21, 0⟩], 7, [21], [(0, ⟨21, 0⟩)]⟩,
        [Event.checkedOut 21, Event.rendered 21, Event.checkedOut 22, Event.rendered 22,
         Event.checkedOut 22, Event.planned 7, Event.composed 21])) ∧
    ([Event.checkedOut 21, Event.rendered 21, Event.checkedOut 22, Event.rendered 22,
      Event.checkedOut 22, Event.planned 7, Event.composed 21].countP isPlanned = 1 ∧
     Event.planned (MainOut.mk ⟨22, [(21, 7)]⟩ [⟨21, 0⟩] 7 [21] [(0, ⟨21, 0⟩)]).max_page_num ∈
       [Event.checkedOut 21, Event.rendered 21, Event.checkedOut 22, Event.rendered 22,
        Event.checkedOut 22, Event.planned 7, Event.composed 21] ∧
     (MainOut.mk ⟨22, [(21, 7)]⟩ [⟨21, 0⟩] 7 [21] [(0, ⟨21, 0⟩)]).max_page_num =
       ((MainOut.mk ⟨22, [(21, 7)]⟩ [⟨21, 0⟩] 7 [21] [(0, ⟨21, 0⟩)]).successful.map
         (pageOf (fun h => if h = 21 then RenderResult.ok 7 else RenderResult.compileFail))).foldl
         max 0) :=
  ⟨⟨by decide, by decide⟩,
   c10_planned_max_pages
     (fun h => if h = 21 then RenderResult.ok 7 else RenderResult.compileFail)
     Timing.commits [⟨21, 0⟩, ⟨22, 5⟩] 3 []
     (MainOut.mk ⟨22, [(21, 7)]⟩ [⟨21, 0⟩] 7 [21] [(0, ⟨21, 0⟩)])
     [Event.checkedOut 21, Event.rendered 21, Event.checkedOut 22, Event.rendered 22,
      Event.checkedOut 22, Event.planned 7, Event.composed 21] (by decide) (by decide)⟩

/-- C6: existence-checked checkpointing.  (1) `generate_pdfs` never re-renders
a commit whose PDF artifact already exists.  (2) `generate_images` never
recomposes an image that already exists.  (3) A run started from empty
artifact directories that completes successfully can be re-invoked with the
same configuration on the artifacts it left behind: the second run succeeds
with exactly the same output (same successful commits, same pdf directory,
same planner input, same images, same frames), renders only commits that
still have no PDF (the ones that failed the first time), and composes
nothing. -/
theorem c6_resume_reuses_artifacts :
    (∀ (render : Nat → RenderResult) (commits : List Commit) (s : GPState) (k : Nat),
       (pdf_lookup k s.pdfs).isSome →
       Event.rendered k ∉ gpEvents (generate_pdfs render commits s)) ∧
    (∀ (pdfs : List (Nat × Nat)) (pngs : List Nat) (k : Nat),
       k ∈ pngs → Event.composed k ∉ (generate_images pdfs pngs).2) ∧
    (∀ (render : Nat → RenderResult) (timing : Timing) (commits : List Commit)
       (chk chk2 : Nat) (out1 : MainOut) (tr1 : List Event),
       (commits.map Commit.hexsha).Nodup →
       paper2movie render timing commits ⟨chk, []⟩ [] = (Except.ok out1, tr1) →
       ∃ tr2, paper2movie render timing commits ⟨chk2, out1.state.pdfs⟩ out1.pngs =
           (Except.ok out1, tr2) ∧
         (∀ k, Event.rendered k ∈ tr2 → pdf_lookup k out1.state.pdfs = none) ∧
         (∀ k, Event.composed k ∉ tr2)) := by
  refine ⟨generate_pdfs_no_rerender, giGo_no_recompose, ?_⟩
  intro render timing commits chk chk2 out1 tr1 hnd hrun
  unfold paper2movie at hrun
  cases hgen : generate_pdfs render commits ⟨chk, []⟩ with
  | error err =>
    obtain ⟨se, evs⟩ := err
    rw [hgen] at hrun
    simp at hrun
  | ok trip =>
    obtain ⟨s1, succ, evs1⟩ := trip
    rw [hgen] at hrun
    dsimp only at hrun
    by_cases hmax : find_maximum_number_of_pages s1.pdfs = 0
    · rw [if_pos hmax] at hrun
      simp at hrun
    · rw [if_neg hmax] at hrun
      cases harr : arrange_images timing succ with
      | error e =>
        rw [harr] at hrun
        simp at hrun
      | ok frames =>
        rw [harr] at hrun
        simp only [Prod.mk.injEq, Except.ok.injEq] at hrun
        obtain ⟨hout, htr⟩ := hrun
        obtain ⟨last, s2, evs2, hlast, hgo, hs1, hevs⟩ :=
          generate_pdfs_ok_elim render commits ⟨chk, []⟩ s1 succ evs1 hgen
        have hfresh : ∀ c ∈ commits, pdf_lookup c.hexsha (GPState.mk chk []).pdfs = none :=
          fun c _ => rfl
        obtain ⟨k2, evs3, hgo2, hrend3⟩ :=
          gpGo_resume render commits ⟨chk, []⟩ s2 succ evs2 hnd hfresh hgo chk2
        have hpdfseq : out1.state.pdfs = s2.pdfs := by
          rw [← hout]
          dsimp only
          rw [hs1]
        have hgen2 : generate_pdfs render commits ⟨chk2, out1.state.pdfs⟩ =
            Except.ok (⟨last.hexsha, s2.pdfs⟩, succ, evs3 ++ [Event.checkedOut last.hexsha]) := by
          unfold generate_pdfs
          rw [hlast, hpdfseq, hgo2]
        have hs1r : (⟨last.hexsha, s2.pdfs⟩ : GPState) = s1 := hs1.symm
        have hpng : out1.pngs = (generate_images s1.pdfs []).1 := by
          rw [← hout]
        have hall : ∀ key ∈ s1.pdfs.map Prod.fst, key ∈ out1.pngs := by
          intro key hkey
          rw [hpng]
          exact giGo_keys_present s1.pdfs [] key hkey
        have hgi2 : generate_images s1.pdfs out1.pngs = (out1.pngs, []) :=
          giGo_all_present _ _ hall
        refine ⟨evs3 ++ [Event.checkedOut last.hexsha] ++
          [Event.planned (find_maximum_number_of_pages s1.pdfs)], ?_, ?_, ?_⟩
        · unfold paper2movie
          rw [hgen2, hs1r]
          dsimp only
          rw [if_neg hmax, harr, hgi2]
          dsimp only
          rw [← hout]
          simp
        · intro k hk
          rcases List.mem_append.mp hk with hk1 | hk1
          · rcases List.mem_append.mp hk1 with hk2 | hk2
            · rw [hpdfseq]
              exact hrend3 k hk2
            · simp at hk2
          · simp at hk1
        · intro k hk
          rcases List.mem_append.mp hk with hk1 | hk1
          · rcases List.mem_append.mp hk1 with hk2 | hk2
            · rcases gpGo_events_shape render commits ⟨chk2, s2.pdfs⟩ (Event.composed k)
                (by rw [hgo2]; exact hk2) with ⟨h2, he⟩ | ⟨h2, he⟩ <;> simp at he
            · simp at hk2
          · simp at hk1

/-- Witness for `c6_resume_reuses_artifacts`: a single-commit run from empty
directories; re-invoking on its artifacts yields the identical output while
rendering and composing nothing (verified by instantiating the resume part). -/
theorem c6_resume_reuses_artifacts_witness :
    ((([⟨5, 0⟩] : List Commit).map Commit.hexsha).Nodup ∧
     paper2movie (fun h => if h = 5 then RenderResult.ok 4 else RenderResult.compileFail)
       Timing.commits [⟨5, 0⟩] ⟨7, []⟩ [] =
       (Except.ok (MainOut.mk ⟨5, [(5, 4)]⟩ [⟨5, 0⟩] 4 [5] [(0, ⟨5, 0⟩)]),
        [Event.checkedOut 5, Event.rendered 5, Event.checkedOut 5, Event.planned 4,
         Event.composed 5])) ∧
    (∃ tr2, paper2movie
        (fun h => if h = 5 then RenderResult.ok 4 else RenderResult.compileFail)
        Timing.commits [⟨5, 0⟩]
        ⟨8, (MainOut.mk ⟨5, [(5, 4)]⟩ [⟨5, 0⟩] 4 [5] [(0, ⟨5, 0⟩)]).state.pdfs⟩
        (MainOut.mk ⟨5, [(5, 4)]⟩ [⟨5, 0⟩] 4 [5] [(0, ⟨5, 0⟩)]).pngs =
          (Except.ok (MainOut.mk ⟨5, [(5, 4)]⟩ [⟨5, 0⟩] 4 [5] [(0, ⟨5, 0⟩)]), tr2) ∧
      (∀ k, Event.rendered k ∈ tr2 →
        pdf_lookup k (MainOut.mk ⟨5, [(5, 4)]⟩ [⟨5, 0⟩] 4 [5] [(0, ⟨5, 0⟩)]).state.pdfs = none) ∧
      (∀ k, Event.composed k ∉ tr2)) :=
  ⟨⟨by decide, by decide⟩,
   c6_resume_reuses_artifacts.2.2
     (fun h => if h = 5 then RenderResult.ok 4 else RenderResult.compileFail)
     Timing.commits [⟨5, 0⟩] 7 8 (MainOut.mk ⟨5, [(5, 4)]⟩ [⟨5, 0⟩] 4 [5] [(0, ⟨5, 0⟩)])
     [Event.checkedOut 5, Event.rendered 5, Event.checkedOut 5, Event.planned 4,
      Event.composed 5] (by decide) (by decide)⟩
